import Mathlib

set_option maxRecDepth 10000

/-! Verification of the LZ77 compressor in src/lempel-ziv-77.py.

Shallow embedding conventions: Python byte strings are List Nat (each element
the integer value of one byte), bitarrays are List Bool in big endian bit
order as produced by the source, and a run that raises an uncaught exception
is modelled as Option.none.  Sequential file reads are modelled by passing the
full input list: the encoder reads the first window_size bytes into the
window buffer and the remainder feeds the lookahead buffer. -/

/-- matching_characters (src lines 6-19): the number of leading positions at
which the two byte strings agree, computed by self-referential decomposition
exactly as in the source. -/
def matchingCharacters : List Nat → List Nat → Nat
  | a :: s1, b :: s2 => if a = b then 1 + matchingCharacters s1 s2 else 0
  | _, _ => 0

/-- Python max(iterable, key = second component) on a list of pairs: keeps the
first element whose key is maximal (a later element replaces the current best
only when its key is strictly greater); on an empty list max raises
ValueError, modelled as none. -/
def pyMaxBySnd : List (Nat × Nat) → Option (Nat × Nat)
  | [] => none
  | x :: xs => some (xs.foldl (fun b y => if b.2 < y.2 then y else b) x)

/-- longest_substring (src lines 31-75): scan offsets 0 .. window_size - 1,
pair each offset with the matching character count of window[offset:] against
the string, and take the Python max keyed on the count; the ValueError branch
for an empty scan range gives (0, 0). -/
def longestSubstring (windowSize : Nat) (window s : List Nat) : Nat × Nat :=
  (pyMaxBySnd ((List.range windowSize).map
      (fun i => (i, matchingCharacters (window.drop i) s)))).getD (0, 0)

/-- A fixed width big endian bit field, as bitarray.frombytes produces for a
value below 2 ^ width. -/
def bitsMSB (width n : Nat) : List Bool :=
  (List.range width).map (fun k => n.testBit (width - 1 - k))

/-- int.to_bytes(1, big) rendered as eight bits; values above 255 raise
OverflowError, modelled as none. -/
def byte8 (n : Nat) : Option (List Bool) :=
  if n < 256 then some (bitsMSB 8 n) else none

/-- Helper for the digits of bin(n)[2:], most significant digit first; the
first argument is fuel, always called with fuel at least n. -/
def binDigitsAux : Nat → Nat → List Bool
  | 0, _ => []
  | fuel + 1, n => if n = 0 then [] else binDigitsAux fuel (n / 2) ++ [n % 2 == 1]

/-- bin(n)[2:] as bits, most significant first; bin(0) has the single digit 0. -/
def natBinDigits (n : Nat) : List Bool :=
  if n = 0 then [false] else binDigitsAux n n

/-- lengther inside make_pointer (src lines 82-96): left pad the binary digits
of copy_length with zero bits up to four, then append the digits; for values
whose binary form needs more than four digits the pad loop is empty and more
than four bits are emitted, exactly as range of a negative count is empty. -/
def nibbleBits (copyLength : Nat) : List Bool :=
  List.replicate (4 - (natBinDigits copyLength).length) false ++ natBinDigits copyLength

/-- make_literal (src lines 77-79): flag bit 0 followed by the byte. -/
def makeLiteral (char : Nat) : Option (List Bool) :=
  (byte8 char).map (fun b => false :: b)

/-- make_pointer (src lines 81-100): flag bit 1, the eight bit copy distance,
then the four bit copy length produced by lengther. -/
def makePointer (copyDistance copyLength : Nat) : Option (List Bool) :=
  (byte8 copyDistance).map (fun b => (true :: b) ++ nibbleBits copyLength)

/-- The token alphabet of the compressed format. -/
inductive Token
  | literal (char : Nat)
  | pointer (distance len : Nat)
deriving DecidableEq

/-- The bits one token contributes to the stream. -/
def tokenBits : Token → Option (List Bool)
  | .literal c => makeLiteral c
  | .pointer d l => makePointer d l

/-- literal_map (src lines 102-104): every byte of the string as a literal. -/
def literalSeed (bytes : List Nat) : Option (List Bool) :=
  (bytes.mapM makeLiteral).map List.flatten

/-- bitarray.fill(): pad with zero bits up to the next byte boundary. -/
def fill8 (bits : List Bool) : List Bool :=
  bits ++ List.replicate ((8 - bits.length % 8) % 8) false

/-- self.window_size = max(self.max_window_size, window_size) (src line 26)
with the class constant max_window_size = 255. -/
def effectiveWindowSize (windowSize : Nat) : Nat := max 255 windowSize

/-- The encode loop (src lines 199-234) as a token producer.  The first
argument is fuel; encode passes rest.length + 1 which is never exhausted
because every iteration consumes at least one byte of rest.

The lookahead refill of the source (lines 204-207) keeps the invariant that
the local lookahead_size counter equals len(lookahead_buffer) until the
first short read at end of file, after which the file yields only empty
reads; in both regimes the refilled lookahead buffer is exactly the first
lookahead_size bytes of the not yet consumed input.  rest here is that not
yet consumed input (buffer plus unread file), so the refilled buffer is
rest.take lookSize.

The loop body: find the best match, turn the offset into a distance measured
from the window end, clamp the length to max_copy_length, emit a pointer when
the clamped length exceeds 1 and otherwise a literal of the first lookahead
byte (raising IndexError, modelled none, when the buffer is empty), slide the
window and the lookahead by the consumed length, and stop as soon as the
lookahead buffer became empty, even when unread input remains. -/
def encodeLoopT : Nat → Nat → Nat → Nat → List Nat → List Nat → Option (List Token)
  | 0, _, _, _, _, _ => none
  | fuel + 1, w, lookSize, maxCopy, window, rest =>
    let look := rest.take lookSize
    let om := longestSubstring w window look
    let len := min om.2 maxCopy
    if 1 < len then
      let tok := Token.pointer (w - om.1) len
      if look.drop len = [] then some [tok]
      else (encodeLoopT fuel w lookSize maxCopy (window.drop len ++ look.take len)
              (rest.drop len)).map (fun ts => tok :: ts)
    else
      match look with
      | [] => none
      | c :: lookTail =>
        if lookTail = [] then some [Token.literal c]
        else (encodeLoopT fuel w lookSize maxCopy (window.drop 1 ++ [c])
                (rest.drop 1)).map (fun ts => Token.literal c :: ts)

/-- encode (src lines 188-234).  The window buffer is seeded with the first
window_size bytes of the input, each written unconditionally as a literal;
the loop then encodes the remainder.  In the source the seed bits are written
before the loop runs and each token writes its bits as it is produced; here
the token list is produced first and its bits are concatenated afterwards,
which yields the same stream, and any exception on the way (IndexError on an
empty lookahead, OverflowError on a distance above 255) makes the whole run
none, matching the fact that the source writes the output file only at the
normal break out of the loop. -/
def encode (lookaheadSize windowSize : Nat) (input : List Nat) : Option (List Bool) :=
  let w := effectiveWindowSize windowSize
  let maxCopy := min 15 lookaheadSize
  let window := input.take w
  let rest := input.drop w
  match encodeLoopT (rest.length + 1) w lookaheadSize maxCopy window rest,
      literalSeed window with
  | some toks, some seed => (toks.mapM tokenBits).map (fun bs => fill8 (seed ++ bs.flatten))
  | _, _ => none

/-- length_decode (src lines 253-271) and int.from_bytes(..., big): fold the
bits most significant first into a number. -/
def bitsToNat (bits : List Bool) : Nat :=
  bits.foldl (fun total c => 2 * total + (if c then 1 else 0)) 0

/-- Python slice index resolution: a negative index counts from the end and is
clamped below at 0, a nonnegative index is clamped above at the length. -/
def pySliceClamp (n : Nat) (i : Int) : Nat :=
  if i < 0 then ((n : Int) + i).toNat else min i.toNat n

/-- Python xs[a:b] for integer bounds a and b. -/
def pySlice {α : Type} (xs : List α) (a b : Int) : List α :=
  (xs.drop (pySliceClamp xs.length a)).take
    (pySliceClamp xs.length b - pySliceClamp xs.length a)

/-- The copy string of the decode pointer branch (src lines 293-297): the
whole tail slice outBuffer[-d:] when d = l, otherwise the Python slice
outBuffer[-d : -d + l]. -/
def decodeCopy (out : List Nat) (copyDistance copyLength : Nat) : List Nat :=
  if copyDistance = copyLength then
    pySlice out (-(copyDistance : Int)) (out.length : Int)
  else
    pySlice out (-(copyDistance : Int)) (-(copyDistance : Int) + (copyLength : Int))

/-- The decode loop (src lines 280-299).  The first argument is fuel; decode
passes bits.length + 1, never exhausted because every iteration removes at
least nine bits.  While at least nine bits remain: read the flag bit, then
either append the next eight bits as a byte and delete nine bits, or read the
eight bit distance and the four bit length, append the copy string resolved
against the current output buffer, and delete thirteen bits. -/
def decodeLoop : Nat → List Bool → List Nat → List Nat
  | 0, _, out => out
  | fuel + 1, bits, out =>
    if 9 ≤ bits.length then
      match bits with
      | [] => out
      | flag :: bitsTail =>
        if flag then
          decodeLoop fuel ((flag :: bitsTail).drop 13)
            (out ++ decodeCopy out (bitsToNat (bitsTail.take 8))
              (bitsToNat (((flag :: bitsTail).drop 9).take 4)))
        else
          decodeLoop fuel ((flag :: bitsTail).drop 9)
            (out ++ [bitsToNat (bitsTail.take 8)])
    else out

/-- decode (src lines 237-302): consume the materialized bitstream from the
front, starting from an empty output buffer; trailing bits (fewer than nine)
are discarded. -/
def decodeBits (bits : List Bool) : List Nat :=
  decodeLoop (bits.length + 1) bits []

-- Sanity checks of the embedding against the docstrings of the source.
example : matchingCharacters [104, 101, 108, 108, 111] [104, 101, 108, 108] = 4 := by decide

example : bitsToNat [true, false, true, true] = 11 := by decide

example : nibbleBits 5 = [false, true, false, true] := by decide

example : decodeBits (fill8 [false, false, true, true, false, false, false, false, true]) = [97] := by
  decide

/-! Helper lemmas about matching_characters. -/

lemma matchingCharacters_nil_left (t : List Nat) : matchingCharacters [] t = 0 := by
  cases t <;> rfl

lemma matchingCharacters_nil_right (s : List Nat) : matchingCharacters s [] = 0 := by
  cases s <;> rfl

lemma matchingCharacters_le_left : ∀ s t : List Nat, matchingCharacters s t ≤ s.length := by
  intro s
  induction s with
  | nil => intro t; simp [matchingCharacters_nil_left]
  | cons a s1 ih =>
    intro t
    cases t with
    | nil => simp [matchingCharacters_nil_right]
    | cons b s2 =>
      by_cases hab : a = b
      · have := ih s2
        simp only [matchingCharacters, if_pos hab, List.length_cons]
        omega
      · simp [matchingCharacters, hab]

lemma matchingCharacters_take_eq : ∀ s t : List Nat,
    s.take (matchingCharacters s t) = t.take (matchingCharacters s t) := by
  intro s
  induction s with
  | nil => intro t; simp [matchingCharacters_nil_left]
  | cons a s1 ih =>
    intro t
    cases t with
    | nil => simp [matchingCharacters_nil_right]
    | cons b s2 =>
      by_cases hab : a = b
      · subst hab
        have hm : matchingCharacters (a :: s1) (a :: s2) = matchingCharacters s1 s2 + 1 := by
          simp [matchingCharacters, Nat.add_comm]
        rw [hm, List.take_succ_cons, List.take_succ_cons, ih s2]
      · simp [matchingCharacters, hab]

lemma matchingCharacters_max : ∀ (s t : List Nat) (k : Nat),
    k ≤ s.length → k ≤ t.length → s.take k = t.take k →
    k ≤ matchingCharacters s t := by
  intro s
  induction s with
  | nil =>
    intro t k hk _ _
    have h0 : k = 0 := Nat.le_zero.mp hk
    subst h0
    exact Nat.zero_le _
  | cons a s1 ih =>
    intro t k hks hkt htake
    cases k with
    | zero => exact Nat.zero_le _
    | succ k =>
      cases t with
      | nil => simp at hkt
      | cons b s2 =>
        simp only [List.take_succ_cons, List.cons.injEq] at htake
        obtain ⟨rfl, htk⟩ := htake
        simp only [List.length_cons] at hks hkt
        have := ih s2 k (by omega) (by omega) htk
        have hm : matchingCharacters (a :: s1) (a :: s2) = 1 + matchingCharacters s1 s2 := by
          simp [matchingCharacters]
        rw [hm]
        omega

/-! Helper lemmas about the Python max over the offset scan. -/

lemma pyMaxBySnd_concat (xs : List (Nat × Nat)) (y : Nat × Nat) (h : xs ≠ []) :
    pyMaxBySnd (xs ++ [y]) =
      (pyMaxBySnd xs).map (fun b => if b.2 < y.2 then y else b) := by
  cases xs with
  | nil => exact absurd rfl h
  | cons x xs => simp [pyMaxBySnd, List.foldl_append]

lemma pyMaxRange_spec (g : Nat → Nat) :
    ∀ w : Nat, 1 ≤ w →
      ∃ r, pyMaxBySnd ((List.range w).map (fun i => (i, g i))) = some r ∧
        r.2 = g r.1 ∧ r.1 < w ∧ (∀ i, i < w → g i ≤ r.2) ∧ (∀ i, i < r.1 → g i < r.2) := by
  intro w
  induction w with
  | zero => intro h; omega
  | succ n ih =>
    intro _
    by_cases hn : n = 0
    · subst hn
      refine ⟨(0, g 0), rfl, rfl, Nat.zero_lt_one, ?_, by omega⟩
      intro i hi
      interval_cases i
      exact Nat.le_refl _
    · obtain ⟨r, hr, h1, h2, h3, h4⟩ := ih (by omega)
      have hne : (List.range n).map (fun i => (i, g i)) ≠ [] := by
        simp [List.map_eq_nil_iff, List.range_eq_nil, hn]
      rw [List.range_succ, List.map_append]
      simp only [List.map_cons, List.map_nil]
      rw [pyMaxBySnd_concat _ _ hne, hr]
      simp only [Option.map_some]
      by_cases hlt : r.2 < g n
      · refine ⟨(n, g n), by simp [hlt], rfl, by omega, ?_, ?_⟩
        · intro i hi
          rcases Nat.lt_succ_iff_lt_or_eq.mp hi with hi' | rfl
          · exact Nat.le_of_lt (Nat.lt_of_le_of_lt (h3 i hi') hlt)
          · exact Nat.le_refl _
        · intro i hi
          exact Nat.lt_of_le_of_lt (h3 i hi) hlt
      · refine ⟨r, by simp [hlt], h1, by omega, ?_, h4⟩
        intro i hi
        rcases Nat.lt_succ_iff_lt_or_eq.mp hi with hi' | rfl
        · exact h3 i hi'
        · omega

lemma longestSubstring_zero (window s : List Nat) :
    longestSubstring 0 window s = (0, 0) := by
  simp [longestSubstring, pyMaxBySnd]

lemma longestSubstring_spec (w : Nat) (window s : List Nat) (hw : 1 ≤ w) :
    (longestSubstring w window s).2
        = matchingCharacters (window.drop (longestSubstring w window s).1) s
      ∧ (longestSubstring w window s).1 < w
      ∧ (∀ i, i < w → matchingCharacters (window.drop i) s ≤ (longestSubstring w window s).2)
      ∧ (∀ i, i < (longestSubstring w window s).1 →
          matchingCharacters (window.drop i) s < (longestSubstring w window s).2) := by
  obtain ⟨r, hr, h1, h2, h3, h4⟩ :=
    pyMaxRange_spec (fun i => matchingCharacters (window.drop i) s) w hw
  have : longestSubstring w window s = r := by
    simp [longestSubstring, hr]
  rw [this]
  exact ⟨h1, h2, h3, h4⟩

lemma longestSubstring_nil_s (w : Nat) (window : List Nat) :
    (longestSubstring w window []).2 = 0 := by
  by_cases hw : 1 ≤ w
  · obtain ⟨h1, _, _, _⟩ := longestSubstring_spec w window [] hw
    rw [h1, matchingCharacters_nil_right]
  · have : w = 0 := by omega
    rw [this, longestSubstring_zero]

/-! Helper lemmas about the bit level token format. -/

lemma bitsMSB_length (width n : Nat) : (bitsMSB width n).length = width := by
  simp [bitsMSB]

lemma bitsToNat_bitsMSB8 : ∀ c, c < 256 → bitsToNat (bitsMSB 8 c) = c := by decide

lemma bitsToNat_bitsMSB4 : ∀ l, l < 16 → bitsToNat (bitsMSB 4 l) = l := by decide

lemma nibbleBits_eq_bitsMSB4 : ∀ l, l < 16 → nibbleBits l = bitsMSB 4 l := by decide

lemma makeLiteral_eq (c : Nat) (hc : c < 256) :
    makeLiteral c = some (false :: bitsMSB 8 c) := by
  simp [makeLiteral, byte8, hc]

lemma makePointer_eq (d l : Nat) (hd : d < 256) (hl : l < 16) :
    makePointer d l = some (true :: (bitsMSB 8 d ++ bitsMSB 4 l)) := by
  simp [makePointer, byte8, hd, nibbleBits_eq_bitsMSB4 l hl]

lemma take_append_of_length {α : Type} {xs : List α} (ys : List α) {n : Nat}
    (h : xs.length = n) : (xs ++ ys).take n = xs := by
  subst h
  simp

lemma drop_append_of_length {α : Type} {xs : List α} (ys : List α) {n : Nat}
    (h : xs.length = n) : (xs ++ ys).drop n = ys := by
  subst h
  simp

/-! One step of the decode loop on each token shape. -/

lemma decodeLoop_literal (c : Nat) (hc : c < 256) (fuel : Nat) (rest : List Bool)
    (out : List Nat) :
    decodeLoop (fuel + 1) ((false :: bitsMSB 8 c) ++ rest) out
      = decodeLoop fuel rest (out ++ [c]) := by
  have h8 : (bitsMSB 8 c).length = 8 := bitsMSB_length 8 c
  have hlen : 9 ≤ ((false :: bitsMSB 8 c) ++ rest).length := by
    simp [h8]
  show decodeLoop (fuel + 1) (false :: (bitsMSB 8 c ++ rest)) out = _
  rw [decodeLoop]
  rw [if_pos (by simpa using hlen)]
  simp only [Bool.false_eq_true, if_false]
  rw [take_append_of_length rest h8, bitsToNat_bitsMSB8 c hc]
  have hdrop : (false :: (bitsMSB 8 c ++ rest)).drop 9 = rest := by
    show (bitsMSB 8 c ++ rest).drop 8 = rest
    exact drop_append_of_length rest h8
  rw [hdrop]

lemma decodeLoop_pointer (d l : Nat) (hd : d < 256) (hl : l < 16) (fuel : Nat)
    (rest : List Bool) (out : List Nat) :
    decodeLoop (fuel + 1) ((true :: (bitsMSB 8 d ++ bitsMSB 4 l)) ++ rest) out
      = decodeLoop fuel rest (out ++ decodeCopy out d l) := by
  have h8 : (bitsMSB 8 d).length = 8 := bitsMSB_length 8 d
  have h4 : (bitsMSB 4 l).length = 4 := bitsMSB_length 4 l
  have hassoc : (true :: (bitsMSB 8 d ++ bitsMSB 4 l)) ++ rest
      = true :: (bitsMSB 8 d ++ (bitsMSB 4 l ++ rest)) := by
    simp
  rw [hassoc]
  rw [decodeLoop]
  rw [if_pos (by simp [h8, h4])]
  simp only [if_true]
  rw [take_append_of_length (bitsMSB 4 l ++ rest) h8, bitsToNat_bitsMSB8 d hd]
  have hdrop9 : (true :: (bitsMSB 8 d ++ (bitsMSB 4 l ++ rest))).drop 9
      = bitsMSB 4 l ++ rest := by
    show (bitsMSB 8 d ++ (bitsMSB 4 l ++ rest)).drop 8 = bitsMSB 4 l ++ rest
    exact drop_append_of_length _ h8
  rw [hdrop9, take_append_of_length rest h4, bitsToNat_bitsMSB4 l hl]
  have hdrop13 : (true :: (bitsMSB 8 d ++ (bitsMSB 4 l ++ rest))).drop 13 = rest := by
    show (bitsMSB 8 d ++ (bitsMSB 4 l ++ rest)).drop 12 = rest
    rw [← List.append_assoc]
    exact drop_append_of_length _ (by simp [h8, h4])
  rw [hdrop13]

/-! Helper lemmas about the decoder copy resolution. -/

lemma decodeCopy_nonoverlap (out : List Nat) (d l : Nat) (hd1 : 1 ≤ d) (hld : l ≤ d)
    (hdn : d ≤ out.length) :
    decodeCopy out d l = (out.drop (out.length - d)).take l := by
  have hstart : pySliceClamp out.length (-(d : Int)) = out.length - d := by
    have hneg : -(d : Int) < 0 := by omega
    simp only [pySliceClamp, if_pos hneg]
    omega
  by_cases hdl : d = l
  · subst hdl
    have hstop : pySliceClamp out.length ((out.length : Nat) : Int) = out.length := by
      have hpos : ¬ ((out.length : Int) < 0) := by omega
      simp only [pySliceClamp, if_neg hpos]
      omega
    simp only [decodeCopy, eq_self_iff_true, if_true, pySlice]
    rw [hstart, hstop]
    congr 1
    omega
  · have hlt : l < d := by omega
    have hstop : pySliceClamp out.length (-(d : Int) + (l : Int)) = out.length - d + l := by
      have hneg : -(d : Int) + (l : Int) < 0 := by omega
      simp only [pySliceClamp, if_pos hneg]
      omega
    simp only [decodeCopy, if_neg hdl, pySlice]
    rw [hstart, hstop]
    congr 1
    omega

lemma decodeCopy_overlap (out : List Nat) (d l : Nat) (hd1 : 1 ≤ d) (hdl : d < l)
    (hdn : d ≤ out.length) :
    decodeCopy out d l
      = (out.drop (out.length - d)).take (min (l - d) out.length - (out.length - d)) := by
  have hstart : pySliceClamp out.length (-(d : Int)) = out.length - d := by
    have hneg : -(d : Int) < 0 := by omega
    simp only [pySliceClamp, if_pos hneg]
    omega
  have hstop : pySliceClamp out.length (-(d : Int) + (l : Int)) = min (l - d) out.length := by
    have hpos : ¬ (-(d : Int) + (l : Int) < 0) := by omega
    simp only [pySliceClamp, if_neg hpos]
    omega
  have hne : d ≠ l := by omega
  simp only [decodeCopy, if_neg hne, pySlice]
  rw [hstart, hstop]

/-! Helper lemmas about the encode loop. -/

lemma encodeLoopT_nil_rest (fuel w lookSize maxCopy : Nat) (window : List Nat) :
    encodeLoopT (fuel + 1) w lookSize maxCopy window [] = none := by
  simp only [encodeLoopT, List.take_nil, longestSubstring_nil_s, Nat.zero_min]
  rw [if_neg (by omega : ¬ (1 < 0))]

lemma encodeLoopT_literal_step (fuel w lookSize maxCopy : Nat) (window rest : List Nat)
    (c : Nat) (lookTail : List Nat) (hlook : rest.take lookSize = c :: lookTail)
    (hlen : min (longestSubstring w window (rest.take lookSize)).2 maxCopy ≤ 1) :
    encodeLoopT (fuel + 1) w lookSize maxCopy window rest =
      if lookTail = [] then some [Token.literal c]
      else (encodeLoopT fuel w lookSize maxCopy (window.drop 1 ++ [c])
              (rest.drop 1)).map (fun ts => Token.literal c :: ts) := by
  rw [hlook] at hlen
  simp only [encodeLoopT]
  rw [hlook, if_neg (by omega)]

lemma encodeLoopT_pointer_gt_one :
    ∀ fuel w lookSize maxCopy window rest toks,
      encodeLoopT fuel w lookSize maxCopy window rest = some toks →
      ∀ d l, Token.pointer d l ∈ toks → 1 < l := by
  intro fuel
  induction fuel with
  | zero =>
    intro w ls mc window rest toks h
    simp [encodeLoopT] at h
  | succ fuel ih =>
    intro w ls mc window rest toks h d l hmem
    simp only [encodeLoopT] at h
    split at h
    · rename_i h1
      split at h
      · simp only [Option.some.injEq] at h
        subst h
        simp only [List.mem_singleton, Token.pointer.injEq] at hmem
        obtain ⟨rfl, rfl⟩ := hmem
        exact h1
      · rw [Option.map_eq_some'] at h
        obtain ⟨ts, hts, htoks⟩ := h
        subst htoks
        rcases List.mem_cons.mp hmem with heq | htail
        · rw [Token.pointer.injEq] at heq
          obtain ⟨rfl, rfl⟩ := heq
          exact h1
        · exact ih w ls mc _ _ ts hts d l htail
    · split at h
      · exact absurd h (by simp)
      · rename_i c lookTail heq
        split at h
        · simp only [Option.some.injEq] at h
          subst h
          simp at hmem
        · rw [Option.map_eq_some'] at h
          obtain ⟨ts, hts, htoks⟩ := h
          subst htoks
          rcases List.mem_cons.mp hmem with heq2 | htail
          · simp at heq2
          · exact ih w ls mc _ _ ts hts d l htail

lemma encodeLoopT_pointer_bounds :
    ∀ fuel w lookSize maxCopy window rest toks,
      (window.length ≤ w ∨ w = 0) →
      encodeLoopT fuel w lookSize maxCopy window rest = some toks →
      ∀ d l, Token.pointer d l ∈ toks → 1 ≤ d ∧ l ≤ d := by
  intro fuel
  induction fuel with
  | zero =>
    intro w ls mc window rest toks _ h
    simp [encodeLoopT] at h
  | succ fuel ih =>
    intro w ls mc window rest toks hw h d l hmem
    simp only [encodeLoopT] at h
    split at h
    · rename_i h1
      have hw0 : w ≠ 0 := by
        rintro rfl
        rw [longestSubstring_zero] at h1
        simp at h1
      have hwin : window.length ≤ w := by
        rcases hw with hww | hww
        · exact hww
        · exact absurd hww hw0
      obtain ⟨hs1, hs2, _, _⟩ :=
        longestSubstring_spec w window (rest.take ls) (by omega)
      have hmlen : (longestSubstring w window (rest.take ls)).2
          ≤ window.length - (longestSubstring w window (rest.take ls)).1 := by
        rw [hs1]
        have hle := matchingCharacters_le_left
          (window.drop (longestSubstring w window (rest.take ls)).1) (rest.take ls)
        rwa [List.length_drop] at hle
      split at h
      · simp only [Option.some.injEq] at h
        subst h
        simp only [List.mem_singleton, Token.pointer.injEq] at hmem
        obtain ⟨rfl, rfl⟩ := hmem
        constructor <;> omega
      · rw [Option.map_eq_some'] at h
        obtain ⟨ts, hts, htoks⟩ := h
        subst htoks
        rcases List.mem_cons.mp hmem with heq | htail
        · rw [Token.pointer.injEq] at heq
          obtain ⟨rfl, rfl⟩ := heq
          constructor <;> omega
        · refine ih w ls mc _ _ ts ?_ hts d l htail
          left
          have hlen : min (longestSubstring w window (rest.take ls)).2 mc
              ≤ window.length := by omega
          simp only [List.length_append, List.length_drop, List.length_take]
          omega
    · split at h
      · exact absurd h (by simp)
      · rename_i c lookTail heq
        split at h
        · simp only [Option.some.injEq] at h
          subst h
          simp at hmem
        · rw [Option.map_eq_some'] at h
          obtain ⟨ts, hts, htoks⟩ := h
          subst htoks
          rcases List.mem_cons.mp hmem with heq2 | htail
          · simp at heq2
          · refine ih w ls mc _ _ ts ?_ hts d l htail
            by_cases hw0 : w = 0
            · right; exact hw0
            · left
              rcases hw with hww | hww
              · simp only [List.length_append, List.length_drop, List.length_cons,
                  List.length_nil]
                omega
              · exact absurd hww hw0

/-! The claims. -/

/-- C1: The spec states the round trip decode(encode(x)) = x for every input
byte sequence representable as text.  The code does not satisfy it: any input
that fits inside the effective window (255 bytes under the default
configuration lookahead_size = 20, window_size = 100) leaves the lookahead
buffer empty forever, and the literal branch reads lookahead_buffer[0] before
the termination check, raising IndexError before any stream is written.  The
theorem evaluates the code at the single text byte "a": encode produces no
stream at all, so no round trip exists for it. -/
theorem C1_round_trip_fails_on_short_input : encode 20 100 [97] = none := by decide

/-- C2 counterexample: the claim predicts that a Pointer with distance 2 and
length 5 applied to an output buffer ending in "ab" appends "ababa".  Decoding
that very pointer token (flag 1, distance byte 2, length nibble 5) against the
buffer "ab" appends only "ab": the decoder has no cyclic overlap resolution,
only a plain slice with a special case for distance = length. -/
theorem C2_counterexample :
    decodeLoop 1 (true :: (bitsMSB 8 2 ++ bitsMSB 4 5)) [97, 98] = [97, 98, 97, 98]
      ∧ decodeLoop 1 (true :: (bitsMSB 8 2 ++ bitsMSB 4 5)) [97, 98]
          ≠ [97, 98] ++ [97, 98, 97, 98, 97] := by decide

/-- C2 amended: when a Pointer with distance < length is applied, the decoder
does not repeat the distance wide pattern; it appends the Python slice
outBuffer[-distance : length - distance], which for 1 ≤ distance ≤ len(out)
and distance < length is the slice of out from len(out) - distance up to
min(length - distance, len(out)).  Against a buffer that is exactly "ab" a
pointer with distance 2 and length 5 therefore appends "ab", not "ababa". -/
theorem C2_overlap_pointer_is_plain_slice (out : List Nat) (d l : Nat) (hd1 : 1 ≤ d)
    (hdl : d < l) (hdn : d ≤ out.length) :
    decodeCopy out d l
      = (out.drop (out.length - d)).take (min (l - d) out.length - (out.length - d)) :=
  decodeCopy_overlap out d l hd1 hdl hdn

theorem C2_overlap_pointer_is_plain_slice_witness :
    (1 ≤ 2 ∧ 2 < 5 ∧ 2 ≤ List.length [97, 98])
      ∧ decodeCopy [97, 98] 2 5
          = (List.drop (List.length [97, 98] - 2) [97, 98]).take
              (min (5 - 2) (List.length [97, 98]) - (List.length [97, 98] - 2)) :=
  ⟨⟨by decide, by decide, by decide⟩,
    C2_overlap_pointer_is_plain_slice [97, 98] 2 5 (by decide) (by decide) (by decide)⟩

/-- C3: The spec requires the effective window capacity never to exceed 255 so
that every distance fits the eight bit field.  The code computes
max(max_window_size, window_size), a floor instead of the intended ceiling
(the constant is even named max_window_size): requesting 300 yields an
effective window of 300, make_pointer cannot represent distance 300 in one
byte (OverflowError), and a whole encode run with window_size 300 on an input
with a match at the window start dies on exactly that overflow. -/
theorem C3_window_ceiling_is_violated :
    effectiveWindowSize 300 = 300 ∧ 255 < effectiveWindowSize 300
      ∧ makePointer 300 2 = none
      ∧ encode 20 300 (List.replicate 302 97) = none := by decide

/-- C4: The spec example says encoding "abababab" with window_size 255 and
lookahead_size 20 completes normally with an 8 times 9 = 72 bit stream of
literals that decodes back to "abababab".  The code instead crashes: the
whole input seeds the window, the lookahead stays empty, and the literal
branch raises IndexError before the output file is written (encode = none).
The stream the spec describes is otherwise correct: the literal seed of the
eight bytes is 72 bits and decodes back to the input, as the remaining
conjuncts evaluate. -/
theorem C4_example_crashes_before_writing :
    encode 20 255 [97, 98, 97, 98, 97, 98, 97, 98] = none
      ∧ (literalSeed [97, 98, 97, 98, 97, 98, 97, 98]).isSome = true
      ∧ ((literalSeed [97, 98, 97, 98, 97, 98, 97, 98]).getD []).length = 72
      ∧ decodeBits (fill8 ((literalSeed [97, 98, 97, 98, 97, 98, 97, 98]).getD []))
          = [97, 98, 97, 98, 97, 98, 97, 98] := by decide

/-- C5 counterexample: on window "aabbccabcabcde" and lookahead "cabcdadfbasd"
the match finder does not return (5, 4): window[8:] = "cabcde" matches five
leading characters of the lookahead "cabcd", strictly more than the four at
offset 5, so the claimed result (taken from the stale docstring) is wrong. -/
theorem C5_counterexample :
    longestSubstring 255 [97, 97, 98, 98, 99, 99, 97, 98, 99, 97, 98, 99, 100, 101]
      [99, 97, 98, 99, 100, 97, 100, 102, 98, 97, 115, 100] ≠ (5, 4) := by decide

/-- C5 amended: on window "aabbccabcabcde" and lookahead "cabcdadfbasd" the
match finder returns the match at offset 8 with length 5 (matching "cabcd");
in particular it selects neither the length 4 match at offset 5 nor the
length 1 match at offset 4, since offset 8 yields a strictly longer run. -/
theorem C5_match_is_offset8_length5 :
    longestSubstring 255 [97, 97, 98, 98, 99, 99, 97, 98, 99, 97, 98, 99, 100, 101]
      [99, 97, 98, 99, 100, 97, 100, 102, 98, 97, 115, 100] = (8, 5) := by decide

/-- C6: The match finder contract.  For a window no longer than window_size,
longest_substring returns a pair whose second component is the matching
character count (a true longest common leading run: the fifth and sixth
conjuncts characterize matchingCharacters as sound and maximal) at the
returned offset; that count is maximal over all offsets in [0, window_size);
every smaller offset has a strictly smaller count (ties go to the lowest
offset); the offset lies in [0, window_size) whenever the range is nonempty;
and the degenerate cases (empty window, empty lookahead, or no offset
matching at least one byte) give (0, 0). -/
theorem C6_matchfinder_contract (w : Nat) (window look : List Nat)
    (hw : window.length ≤ w) :
    ((longestSubstring w window look).2
        = matchingCharacters (window.drop (longestSubstring w window look).1) look)
  ∧ (0 < w → (longestSubstring w window look).1 < w)
  ∧ (∀ i, i < w → matchingCharacters (window.drop i) look
        ≤ (longestSubstring w window look).2)
  ∧ (∀ i, i < (longestSubstring w window look).1 →
        matchingCharacters (window.drop i) look < (longestSubstring w window look).2)
  ∧ (∀ i, (window.drop i).take (matchingCharacters (window.drop i) look)
        = look.take (matchingCharacters (window.drop i) look))
  ∧ (∀ i k, k ≤ (window.drop i).length → k ≤ look.length →
        (window.drop i).take k = look.take k →
        k ≤ matchingCharacters (window.drop i) look)
  ∧ ((window = [] ∨ look = []
        ∨ (∀ i, i < w → matchingCharacters (window.drop i) look = 0))
      → longestSubstring w window look = (0, 0)) := by
  by_cases hw1 : 1 ≤ w
  · obtain ⟨h1, h2, h3, h4⟩ := longestSubstring_spec w window look hw1
    refine ⟨h1, fun _ => h2, h3, h4, fun i => matchingCharacters_take_eq _ _,
      fun i k hk1 hk2 hk3 => matchingCharacters_max _ _ k hk1 hk2 hk3, ?_⟩
    intro hdeg
    have hzero : ∀ i, i < w → matchingCharacters (window.drop i) look = 0 := by
      rcases hdeg with hwin | hlook | hz
      · intro i _
        subst hwin
        simp [matchingCharacters_nil_left]
      · intro i _
        subst hlook
        simp [matchingCharacters_nil_right]
      · exact hz
    have hr2 : (longestSubstring w window look).2 = 0 := by
      rw [h1]
      exact hzero _ h2
    have hr1 : (longestSubstring w window look).1 = 0 := by
      by_contra hne
      have h0 : 0 < (longestSubstring w window look).1 := Nat.pos_of_ne_zero hne
      have := h4 0 h0
      omega
    exact Prod.ext_iff.mpr ⟨hr1, hr2⟩
  · have hw0 : w = 0 := by omega
    subst hw0
    have hwin : window = [] := List.eq_nil_of_length_eq_zero (by omega)
    subst hwin
    rw [longestSubstring_zero]
    refine ⟨by simp [matchingCharacters_nil_left], by omega, ?_, ?_,
      fun i => by simp [matchingCharacters_nil_left],
      fun i k hk1 hk2 hk3 => ?_, fun _ => rfl⟩
    · intro i hi
      exact absurd hi (by omega)
    · intro i hi
      simp at hi
    · simp at hk1
      subst hk1
      exact Nat.zero_le _

theorem C6_matchfinder_contract_witness :
    List.length [97, 98] ≤ 255
  ∧ (longestSubstring 255 [97, 98] [98]).2
      = matchingCharacters (List.drop (longestSubstring 255 [97, 98] [98]).1 [97, 98]) [98]
  ∧ matchingCharacters (List.drop 0 [97, 98]) [98] ≤ (longestSubstring 255 [97, 98] [98]).2 :=
  ⟨by decide, (C6_matchfinder_contract 255 [97, 98] [98] (by decide)).1,
    (C6_matchfinder_contract 255 [97, 98] [98] (by decide)).2.2.1 0 (by decide)⟩

/-- C7: Token bit format.  A literal of any byte value occupies exactly nine
bits, flag 0 followed by the eight bit big endian byte; a pointer with
distance in [1, 255] and length in [1, 15] occupies exactly thirteen bits,
flag 1, the eight bit big endian distance, the four bit big endian length.
The tokens are packed with no alignment: prefixing either token shape to any
remaining stream makes the decode loop consume exactly that token (nine or
thirteen bits), recover the byte (or the distance and length, applied through
the copy resolution), and continue on the remaining bits. -/
theorem C7_token_bit_format :
    (∀ c, c < 256 →
        makeLiteral c = some (false :: bitsMSB 8 c)
      ∧ (false :: bitsMSB 8 c).length = 9
      ∧ ∀ fuel rest out, decodeLoop (fuel + 1) ((false :: bitsMSB 8 c) ++ rest) out
            = decodeLoop fuel rest (out ++ [c]))
  ∧ (∀ d l, 1 ≤ d → d ≤ 255 → 1 ≤ l → l ≤ 15 →
        makePointer d l = some (true :: (bitsMSB 8 d ++ bitsMSB 4 l))
      ∧ (true :: (bitsMSB 8 d ++ bitsMSB 4 l)).length = 13
      ∧ ∀ fuel rest out,
            decodeLoop (fuel + 1) ((true :: (bitsMSB 8 d ++ bitsMSB 4 l)) ++ rest) out
              = decodeLoop fuel rest (out ++ decodeCopy out d l)) := by
  constructor
  · intro c hc
    exact ⟨makeLiteral_eq c hc, by simp [bitsMSB_length],
      fun fuel rest out => decodeLoop_literal c hc fuel rest out⟩
  · intro d l hd1 hd255 hl1 hl15
    exact ⟨makePointer_eq d l (by omega) (by omega), by simp [bitsMSB_length],
      fun fuel rest out => decodeLoop_pointer d l (by omega) (by omega) fuel rest out⟩

theorem C7_token_bit_format_witness :
    makeLiteral 97 = some (false :: bitsMSB 8 97)
  ∧ decodeLoop 1 ((false :: bitsMSB 8 97) ++ []) [] = decodeLoop 0 [] ([] ++ [97])
  ∧ makePointer 3 2 = some (true :: (bitsMSB 8 3 ++ bitsMSB 4 2))
  ∧ decodeLoop 1 ((true :: (bitsMSB 8 3 ++ bitsMSB 4 2)) ++ []) [90, 91, 92]
      = decodeLoop 0 [] ([90, 91, 92] ++ decodeCopy [90, 91, 92] 3 2) :=
  ⟨(C7_token_bit_format.1 97 (by decide)).1,
    (C7_token_bit_format.1 97 (by decide)).2.2 0 [] [],
    (C7_token_bit_format.2 3 2 (by decide) (by decide) (by decide) (by decide)).1,
    (C7_token_bit_format.2 3 2 (by decide) (by decide) (by decide) (by decide)).2.2
      0 [] [90, 91, 92]⟩

/-- C8: Pointer emission policy.  First conjunct: whatever the configuration
and state, every pointer token the encode loop ever emits carries a copy
length strictly greater than 1.  Second conjunct: in a step whose clamped
best match length is at most 1, with a nonempty lookahead buffer, the loop
emits a literal carrying the first lookahead byte and advances the window and
the lookahead by exactly one byte (terminating right away when that byte was
the last one buffered). -/
theorem C8_pointer_emission_policy :
    (∀ fuel w lookSize maxCopy window rest toks,
        encodeLoopT fuel w lookSize maxCopy window rest = some toks →
        ∀ d l, Token.pointer d l ∈ toks → 1 < l)
  ∧ (∀ fuel w lookSize maxCopy window rest c lookTail,
        rest.take lookSize = c :: lookTail →
        min (longestSubstring w window (rest.take lookSize)).2 maxCopy ≤ 1 →
        encodeLoopT (fuel + 1) w lookSize maxCopy window rest =
          if lookTail = [] then some [Token.literal c]
          else (encodeLoopT fuel w lookSize maxCopy (window.drop 1 ++ [c])
                  (rest.drop 1)).map (fun ts => Token.literal c :: ts)) :=
  ⟨encodeLoopT_pointer_gt_one,
    fun fuel w ls mc window rest c lookTail h1 h2 =>
      encodeLoopT_literal_step fuel w ls mc window rest c lookTail h1 h2⟩

theorem C8_pointer_emission_policy_witness :
    (encodeLoopT 1 255 20 15 (List.replicate 255 97) [97, 97] = some [Token.pointer 255 2]
      ∧ 1 < 2)
  ∧ (List.take 20 [98, 99] = 98 :: [99]
      ∧ min (longestSubstring 255 [97] (List.take 20 [98, 99])).2 15 ≤ 1
      ∧ encodeLoopT 1 255 20 15 [97] [98, 99] =
          if ([99] : List Nat) = [] then some [Token.literal 98]
          else (encodeLoopT 0 255 20 15 (List.drop 1 [97] ++ [98])
                  (List.drop 1 [98, 99])).map (fun ts => Token.literal 98 :: ts)) := by
  constructor
  · exact ⟨by decide,
      C8_pointer_emission_policy.1 1 255 20 15 (List.replicate 255 97) [97, 97]
        [Token.pointer 255 2] (by decide) 255 2 (by decide)⟩
  · exact ⟨by decide, by decide,
      C8_pointer_emission_policy.2 0 255 20 15 [97] [98, 99] 98 [99]
        (by decide) (by decide)⟩

/-- C9: Every pointer the encode loop emits from a window no longer than the
configured window size satisfies 1 ≤ distance and length ≤ distance (the
match at offset i extends at most window_length - i ≤ window_size - i bytes
while the emitted distance is window_size - i); and on any such pointer the
decoder copy resolution (the plain slice, together with its special case for
distance = length) appends exactly the designated bytes, namely the length
bytes of the output that start distance bytes before its end. -/
theorem C9_pointer_distance_dominates_length :
    (∀ fuel w lookSize maxCopy window rest toks,
        window.length ≤ w →
        encodeLoopT fuel w lookSize maxCopy window rest = some toks →
        ∀ d l, Token.pointer d l ∈ toks → 1 ≤ d ∧ l ≤ d)
  ∧ (∀ out d l, 1 ≤ d → l ≤ d → d ≤ out.length →
        decodeCopy out d l = (out.drop (out.length - d)).take l) :=
  ⟨fun fuel w ls mc window rest toks hw h =>
      encodeLoopT_pointer_bounds fuel w ls mc window rest toks (Or.inl hw) h,
    fun out d l h1 h2 h3 => decodeCopy_nonoverlap out d l h1 h2 h3⟩

theorem C9_pointer_distance_dominates_length_witness :
    (List.length (List.replicate 255 98) ≤ 255
      ∧ encodeLoopT 1 255 20 15 (List.replicate 255 98) [98, 98] = some [Token.pointer 255 2]
      ∧ (1 ≤ 255 ∧ 2 ≤ 255))
  ∧ decodeCopy [10, 11, 12] 3 2
      = (List.drop (List.length [10, 11, 12] - 3) [10, 11, 12]).take 2 := by
  constructor
  · refine ⟨by decide, by decide, ?_⟩
    exact C9_pointer_distance_dominates_length.1 1 255 20 15 (List.replicate 255 98)
      [98, 98] [Token.pointer 255 2] (by decide) (by decide) 255 2 (by decide)
  · exact C9_pointer_distance_dominates_length.2 [10, 11, 12] 3 2
      (by decide) (by decide) (by decide)

/-- C10: Whenever the whole input fits inside the effective window (the empty
input included), the initial read consumes all of it, the lookahead buffer
never receives a byte, the best match length is 0, and the literal branch
reads lookahead_buffer[0] before the termination check at the end of the loop
body can run: encode raises IndexError, modelled none, and the source only
opens the output file in the terminating branch, so nothing is written. -/
theorem C10_short_input_encode_fails (lookaheadSize windowSize : Nat) (input : List Nat)
    (h : input.length ≤ effectiveWindowSize windowSize) :
    encode lookaheadSize windowSize input = none := by
  have hrest : input.drop (effectiveWindowSize windowSize) = [] :=
    List.drop_eq_nil_of_le h
  simp only [encode]
  rw [hrest]
  simp only [List.length_nil]
  rw [encodeLoopT_nil_rest]

theorem C10_short_input_encode_fails_witness :
    List.length ([] : List Nat) ≤ effectiveWindowSize 100 ∧ encode 20 100 [] = none :=
  ⟨by decide, C10_short_input_encode_fails 20 100 [] (by decide)⟩
